import Mathlib

/-! # Verification of tools/parse_convos.py

A shallow embedding of the extraction engine of `tools/parse_convos.py`:
the four pattern recognizers (compiled regexes `FILE_BEGIN_RE`, `FILE_END_RE`,
`CODEFENCE_NAME_RE`, `INLINE_NAME_RE` and the `startswith` fence test), the
path normalizer, the line scanner `extract_from_file`, and the driver's
registry (`files_map`, an `OrderedDict`), materialization path stripping and
report lines.  Lines are modelled as `List Char`, exactly as produced by
`readlines()` (each line keeps its trailing newline, the last may lack one).
-/

namespace ParseConvos

/-- One transcript line, as a list of characters (trailing newline included). -/
abbrev Line := List Char

/-- Python `\s` / `str.strip` whitespace over the ASCII range. -/
def isSpaceCh (c : Char) : Bool :=
  c == ' ' || c == '\t' || c == '\n' || c == '\r' || c == '\x0b' || c == '\x0c'

/-- Greedy `\s*` immediately followed by a non-space literal is deterministic:
consume all leading whitespace. -/
def dropWs (cs : List Char) : List Char := cs.dropWhile isSpaceCh

/-- Match a literal, returning the remainder of the input. -/
def matchLit (pat cs : List Char) : Option (List Char) :=
  if pat.isPrefixOf cs then some (cs.drop pat.length) else none

/-- Lazy `(.+?)` followed by `\s*---`: the shortest non-empty run of
non-newline characters whose remainder, after greedy whitespace, starts with
`---`.  Follows the backtracking order of Python's `re`. -/
def dotLazyDashes : List Char → Option (List Char)
  | [] => none
  | c :: rest =>
    if c == '\n' then none
    else if ("---".toList).isPrefixOf (dropWs rest) then some [c]
    else (dotLazyDashes rest).map (fun g => c :: g)

/-- Python `\s*(.+?)\s*---` with greedy outer `\s*`: try the longest
whitespace prefix first, backtracking one character at a time, running the
lazy group at each level.  Returns the captured group. -/
def wsGroupDashes : List Char → Option (List Char)
  | [] => none
  | c :: rest =>
    if isSpaceCh c then
      match wsGroupDashes rest with
      | some g => some g
      | none => dotLazyDashes (c :: rest)
    else dotLazyDashes (c :: rest)

/-- FILE_BEGIN_RE = `^---\s*BEGIN(?:\s*FILE)?:\s*(.+?)\s*---`; returns
group 1.  The optional `(?:\s*FILE)?` is tried greedily first, falling back
to the bare `BEGIN:` alternative, as `re` does. -/
def beginMatch (l : Line) : Option (List Char) :=
  match matchLit "---".toList l with
  | none => none
  | some r0 =>
    match matchLit "BEGIN".toList (dropWs r0) with
    | none => none
    | some r1 =>
      let withFile : Option (List Char) :=
        match matchLit "FILE".toList (dropWs r1) with
        | some r2 =>
          match matchLit ":".toList r2 with
          | some r3 => wsGroupDashes r3
          | none => none
        | none => none
      match withFile with
      | some g => some g
      | none =>
        match matchLit ":".toList r1 with
        | some r3 => wsGroupDashes r3
        | none => none

/-- FILE_END_RE = `^---\s*END(?:\s*FILE)?:?\s*(.+?)\s*---`; the scanner only
uses whether it matches, so the result is a `Bool` (ordered alternatives
collapse to disjunction). -/
def endMatch (l : Line) : Bool :=
  match matchLit "---".toList l with
  | none => false
  | some r0 =>
    match matchLit "END".toList (dropWs r0) with
    | none => false
    | some r1 =>
      let tailMatch : List Char → Bool := fun r =>
        (match matchLit ":".toList r with
         | some r2 => (wsGroupDashes r2).isSome
         | none => false) || (wsGroupDashes r).isSome
      (match matchLit "FILE".toList (dropWs r1) with
       | some r2 => tailMatch r2
       | none => false) || tailMatch r1

/-- CODEFENCE_NAME_RE = ``^```\s*name=(.+)``; greedy `(.+)` stops at the
newline and must be non-empty. -/
def fenceName (l : Line) : Option (List Char) :=
  match matchLit "```".toList l with
  | none => none
  | some r0 =>
    match matchLit "name=".toList (dropWs r0) with
    | none => none
    | some r1 =>
      let g := r1.takeWhile (fun c => c != '\n')
      if g.isEmpty then none else some g

/-- INLINE_NAME_RE = `^name=(.+)`. -/
def inlineName (l : Line) : Option (List Char) :=
  match matchLit "name=".toList l with
  | none => none
  | some r1 =>
    let g := r1.takeWhile (fun c => c != '\n')
    if g.isEmpty then none else some g

/-- Python `line.startswith('```')`. -/
def startsFence (l : Line) : Bool := ("```".toList).isPrefixOf l

/-- Python `line.strip() == ''`. -/
def isBlankLine (l : Line) : Bool := l.all isSpaceCh

/-- Python `str.strip()`. -/
def pyStrip (l : List Char) : List Char :=
  ((l.dropWhile isSpaceCh).reverse.dropWhile isSpaceCh).reverse

/-- Source `normalize_path`: strip, backslashes to slashes, and one
layer of surrounding double quotes (the source tests the same double-quote
condition twice; the disjunction is kept as written). -/
def normalize_path (p : List Char) : List Char :=
  let p1 := pyStrip p
  let p2 := p1.map (fun c => if c == '\\' then '/' else c)
  if (p2.head? = some '"' && p2.getLast? = some '"')
      || (p2.head? = some '"' && p2.getLast? = some '"') then
    (p2.drop 1).dropLast
  else p2

/-- Python `''.join(buf).rstrip('\n')`: drop every trailing newline character. -/
def rstripNl (s : List Char) : List Char :=
  (s.reverse.dropWhile (fun c => c == '\n')).reverse

/-- Python `''.join(buf).rstrip('\n') + '\n'`: the content of every captured block. -/
def mkContent (buf : List Line) : List Char :=
  rstripNl buf.flatten ++ ['\n']

/-- One captured block: normalized path, source-order (convo) index, content. -/
structure CapturedBlock where
  path : List Char
  idx : Nat
  content : List Char
deriving DecidableEq, Repr

/-- Python `if i < n and PRED(lines[i]): i += 1` — consume the terminator line when
present. -/
def dropTerm (p : Line → Bool) : List Line → List Line
  | [] => []
  | e :: r => if p e then r else e :: r

/-- One iteration of the scanning loop of `extract_from_file`: given the
current line and the remaining lines, emit at most one captured block and
return the lines left for the next iteration.  The four recognizers are tried
in the source's order; on total rejection nothing is consumed (the caller
advances by one line).  In the fallback branch the source tests
`if found_name:`, so a name that normalizes to the empty string is falsy and
the recognizer declines. -/
def scanStep (idx : Nat) (line : Line) (rest : List Line) :
    Option CapturedBlock × List Line :=
  match beginMatch line with
  | some g =>
    let body := rest.takeWhile (fun l => !endMatch l)
    let after := dropTerm endMatch (rest.dropWhile (fun l => !endMatch l))
    (some ⟨normalize_path g, idx, mkContent body⟩, after)
  | none =>
  match fenceName line with
  | some g =>
    let body := rest.takeWhile (fun l => !startsFence l)
    let after := dropTerm startsFence (rest.dropWhile (fun l => !startsFence l))
    (some ⟨normalize_path g, idx, mkContent body⟩, after)
  | none =>
  match inlineName line with
  | some g =>
    let r1 := rest.dropWhile isBlankLine
    match r1 with
    | f :: r =>
      if startsFence f then
        let body := r.takeWhile (fun l => !startsFence l)
        let after := dropTerm startsFence (r.dropWhile (fun l => !startsFence l))
        (some ⟨normalize_path g, idx, mkContent body⟩, after)
      else
        let p := fun l =>
          !isBlankLine l && (inlineName l).isNone && (beginMatch l).isNone
        (some ⟨normalize_path g, idx, mkContent (r1.takeWhile p)⟩, r1.dropWhile p)
    | [] => (some ⟨normalize_path g, idx, mkContent []⟩, [])
  | none =>
  if startsFence line then
    match rest with
    | next :: r =>
      match inlineName next with
      | some g =>
        if (normalize_path g).isEmpty then (none, rest)
        else
          let body := r.takeWhile (fun l => !startsFence l)
          let after := dropTerm startsFence (r.dropWhile (fun l => !startsFence l))
          (some ⟨normalize_path g, idx, mkContent body⟩, after)
      | none => (none, rest)
    | [] => (none, rest)
  else (none, rest)

/-- The scanning loop, fuelled: each iteration of the source's `while i < n`
loop consumes at least one line, so `lines.length` units of fuel suffice. -/
def extractGo (idx : Nat) : Nat → List Line → List CapturedBlock
  | 0, _ => []
  | _ + 1, [] => []
  | fuel + 1, line :: rest =>
    match scanStep idx line rest with
    | (some b, rest2) => b :: extractGo idx fuel rest2
    | (none, _) => extractGo idx fuel rest

/-- The sequence of captured blocks `extract_from_file` registers, in the
scan order of one transcript. -/
def extractBlocks (idx : Nat) (lines : List Line) : List CapturedBlock :=
  extractGo idx lines.length lines

/-- The `files_map`, an `OrderedDict`: an association list in which assignment
replaces the value of an existing key in place and appends a new key at the
end; iteration order is the list order. -/
abbrev FilesMap := List (List Char × Nat × List Char)

/-- Assignment `files_map[k] = v` on an `OrderedDict`. -/
def odInsert (m : FilesMap) (k : List Char) (v : Nat × List Char) : FilesMap :=
  match m with
  | [] => [(k, v)]
  | (k1, v1) :: rest =>
    if k1 = k then (k, v) :: rest else (k1, v1) :: odInsert rest k v

/-- Assignment `files_map[fname] = (convo_index, content)` for one captured block. -/
def registerBlock (m : FilesMap) (b : CapturedBlock) : FilesMap :=
  odInsert m b.path (b.idx, b.content)

/-- Source `extract_from_file`: scans one transcript, folds every captured block
into `files_map` in scan order, and returns `unknowns_counter` unchanged
(the source's `return unknowns_counter`, the counter is never touched). -/
def extract_from_file (lines : List Line) (files_map : FilesMap)
    (unknowns_counter : Nat) (convo_index : Nat) : FilesMap × Nat :=
  ((extractBlocks convo_index lines).foldl registerBlock files_map,
   unknowns_counter)

/-- The driver loop of `main`: `for idx, p in enumerate(convo_paths, start=1)`
feeding each transcript through `extract_from_file`. -/
def mainFold : List (List Line) → Nat → FilesMap → FilesMap
  | [], _, m => m
  | t :: ts, idx, m => mainFold ts (idx + 1) (extract_from_file t m 0 idx).1

/-- The final `files_map` after all transcripts, in enumeration order. -/
def registry (ts : List (List Line)) : FilesMap := mainFold ts 1 []

/-- Every captured block of every transcript, in processing order, each
stamped with its transcript's 1-based source-order index. -/
def allBlocksFrom : List (List Line) → Nat → List CapturedBlock
  | [], _ => []
  | t :: ts, idx => extractBlocks idx t ++ allBlocksFrom ts (idx + 1)

/-- The stream `allBlocksFrom` started at index 1, as `main` does. -/
def allBlocks (ts : List (List Line)) : List CapturedBlock := allBlocksFrom ts 1

/-- Dictionary lookup on the association list. -/
def lookupPath : FilesMap → List Char → Option (Nat × List Char)
  | [], _ => none
  | (k, v) :: m, p => if k = p then some v else lookupPath m p

/-- The last block for a given path in a block stream (scan order). -/
def lastFor (p : List Char) (bs : List CapturedBlock) : Option CapturedBlock :=
  (bs.filter (fun b => b.path == p)).getLast?

/-- Line 166 of the source reads `path.lstrip('/\')`, an unterminated string
literal (the backslash escapes the closing quote), so the script aborts with
a SyntaxError before reaching this step at all.  The evident intent, matching
the comment `normalize and prevent absolute writes` above it, is
`path.lstrip('/\\')`: drop leading forward and backward slashes only. -/
def safe_path (p : List Char) : List Char :=
  p.dropWhile (fun c => c == '/' || c == '\\')

/-- Modelled from the spec: a "leading drive-style prefix" on an output path,
an ASCII letter followed by a colon as in `C:/...`. -/
def hasDriveMarker (p : List Char) : Bool :=
  match p with
  | a :: b :: _ => a.isAlpha && b == ':'
  | _ => false

/-- UTF-8 byte length of a string, the number of bytes `open(...).write`
produces; the report instead records `len(content)`, the code-point count. -/
def utf8Len (s : List Char) : Nat := (s.map Char.utf8Size).sum

/-- The `written` list of `main`: one `(safe_path, conv_idx, len(content))`
triple per registry entry, in registry iteration order. -/
def written (ts : List (List Line)) : List (List Char × Nat × Nat) :=
  (registry ts).map (fun e => (safe_path e.1, e.2.1, e.2.2.length))

/-- One report line: `- {p} (from convo index {idx}, {size} bytes)`. -/
def reportLine (p : List Char) (idx size : Nat) : List Char :=
  "- ".toList ++ p ++ " (from convo index ".toList ++ (toString idx).toList
    ++ ", ".toList ++ (toString size).toList ++ " bytes)".toList

/-- The per-file lines of the report, in the order the source writes them
(the surrounding header and notes are fixed text). -/
def reportFileLines (ts : List (List Line)) : List (List Char) :=
  (written ts).map (fun e => reportLine e.1 e.2.1 e.2.2)

/-- Modelled from the spec: "Registry iteration order = first-insertion order
of still-current keys" — the key sequence in order of first insertion. -/
def firstInsertionOrder (ps : List (List Char)) : List (List Char) :=
  ps.foldl (fun ks p => if p ∈ ks then ks else ks ++ [p]) []

/-! ## Basic lemmas about the scanner -/

theorem length_dropWhile_le (p : Line → Bool) (l : List Line) :
    (l.dropWhile p).length ≤ l.length :=
  (List.dropWhile_sublist p).length_le

theorem length_dropTerm_le (p : Line → Bool) (l : List Line) :
    (dropTerm p l).length ≤ l.length := by
  cases l with
  | nil => simp [dropTerm]
  | cons e r => simp only [dropTerm]; split <;> simp

theorem scanStep_snd_length (idx : Nat) (line : Line) (rest : List Line) :
    (scanStep idx line rest).2.length ≤ rest.length := by
  have hdd : ∀ (p q : Line → Bool) (l : List Line),
      (dropTerm p (l.dropWhile q)).length ≤ l.length :=
    fun p q l => le_trans (length_dropTerm_le p _) (length_dropWhile_le q l)
  unfold scanStep
  cases hb : beginMatch line with
  | some g => exact hdd _ _ _
  | none =>
  cases hf : fenceName line with
  | some g => exact hdd _ _ _
  | none =>
  cases hi : inlineName line with
  | some g =>
    dsimp only
    have hr1 : (rest.dropWhile isBlankLine).length ≤ rest.length :=
      length_dropWhile_le _ _
    cases hr : rest.dropWhile isBlankLine with
    | nil => simp
    | cons f r =>
      rw [hr] at hr1
      dsimp only
      split
      · calc (dropTerm startsFence
              (r.dropWhile (fun l => !startsFence l))).length
            ≤ r.length :=
              le_trans (length_dropTerm_le _ _) (length_dropWhile_le _ _)
          _ ≤ rest.length := le_trans (Nat.le_succ r.length) hr1
      · show (List.dropWhile
              (fun l => !isBlankLine l && (inlineName l).isNone
                && (beginMatch l).isNone) (f :: r)).length ≤ rest.length
        exact le_trans (length_dropWhile_le _ _) hr1
  | none =>
    dsimp only
    split
    · cases rest with
      | nil => simp
      | cons next r =>
        dsimp only
        cases hn : inlineName next with
        | some g =>
          dsimp only
          split
          · simp
          · exact le_trans (hdd _ _ _) (Nat.le_succ _)
        | none => simp
    · simp

theorem extractGo_fuel (idx : Nat) :
    ∀ (f g : Nat) (lines : List Line), lines.length ≤ f → lines.length ≤ g →
      extractGo idx f lines = extractGo idx g lines := by
  intro f
  induction f with
  | zero =>
    intro g lines hf _
    have : lines = [] := List.eq_nil_of_length_eq_zero (Nat.le_zero.mp hf)
    subst this
    cases g <;> rfl
  | succ f ih =>
    intro g lines hf hg
    cases lines with
    | nil => cases g <;> rfl
    | cons line rest =>
      cases g with
      | zero => simp at hg
      | succ g' =>
        have hr : rest.length ≤ f := Nat.le_of_succ_le_succ (by simpa using hf)
        have hr' : rest.length ≤ g' := Nat.le_of_succ_le_succ (by simpa using hg)
        have h2 : (scanStep idx line rest).2.length ≤ rest.length :=
          scanStep_snd_length idx line rest
        simp only [extractGo]
        cases hstep : scanStep idx line rest with
        | mk ob rest2 =>
          rw [hstep] at h2
          cases ob with
          | some b =>
            simp only []
            rw [ih g' rest2 (le_trans h2 hr) (le_trans h2 hr')]
          | none =>
            simp only []
            rw [ih g' rest hr hr']

/-- One step of the scan, phrased on `extractBlocks` (the source's loop
iteration): the head line is examined, at most one block is emitted, and
scanning continues on the unconsumed remainder. -/
theorem extractBlocks_cons (idx : Nat) (line : Line) (rest : List Line) :
    extractBlocks idx (line :: rest) =
      (match scanStep idx line rest with
       | (some b, rest2) => b :: extractBlocks idx rest2
       | (none, _) => extractBlocks idx rest) := by
  have h2 := scanStep_snd_length idx line rest
  unfold extractBlocks
  simp only [List.length_cons, extractGo]
  cases hstep : scanStep idx line rest with
  | mk ob rest2 =>
    rw [hstep] at h2
    cases ob with
    | some b =>
      simp only []
      rw [extractGo_fuel idx rest.length rest2.length rest2 h2 (le_refl _)]
    | none =>
      simp only []

/-! ## Span and content lemmas -/

theorem takeWhile_until (p : Line → Bool) (body : List Line) (closer : Line)
    (post : List Line) (hb : ∀ l ∈ body, p l = false) (hc : p closer = true) :
    (body ++ closer :: post).takeWhile (fun l => !p l) = body := by
  rw [List.takeWhile_append_of_pos (by intro a ha; simp [hb a ha])]
  simp [List.takeWhile_cons, hc]

theorem dropWhile_until (p : Line → Bool) (body : List Line) (closer : Line)
    (post : List Line) (hb : ∀ l ∈ body, p l = false) (hc : p closer = true) :
    (body ++ closer :: post).dropWhile (fun l => !p l) = closer :: post := by
  rw [List.dropWhile_append_of_pos (by intro a ha; simp [hb a ha])]
  simp [List.dropWhile_cons, hc]

theorem takeWhile_all (p : Line → Bool) (ls : List Line)
    (h : ∀ l ∈ ls, p l = false) : ls.takeWhile (fun l => !p l) = ls :=
  List.takeWhile_eq_self_iff.mpr (by intro a ha; simp [h a ha])

theorem dropWhile_all (p : Line → Bool) (ls : List Line)
    (h : ∀ l ∈ ls, p l = false) : ls.dropWhile (fun l => !p l) = [] :=
  List.dropWhile_eq_nil_iff.mpr (by intro a ha; simp [h a ha])

/-- The result of `dropWhile p` never starts with an element satisfying `p`. -/
theorem dropWhile_no_head (p : Char → Bool) :
    ∀ (l : List Char), (l.dropWhile p).takeWhile p = [] := by
  intro l
  induction l with
  | nil => rfl
  | cons c l ih =>
    rw [List.dropWhile_cons]
    split
    · exact ih
    · rename_i h
      rw [List.takeWhile_cons]
      simp [h]

/-- Every captured content ends in exactly one newline: `rstrip('\n') + '\n'`
leaves a single trailing newline, whatever the source span ended with. -/
theorem mkContent_trailing (buf : List Line) :
    (mkContent buf).reverse.takeWhile (fun c => c == '\n') = ['\n'] := by
  unfold mkContent rstripNl
  rw [List.reverse_append]
  simp only [List.reverse_cons, List.reverse_nil, List.nil_append,
    List.singleton_append, List.takeWhile_cons, List.reverse_reverse]
  simp [dropWhile_no_head]

/-! ## Registry lemmas -/

theorem lookup_odInsert (m : FilesMap) (k q : List Char) (v : Nat × List Char) :
    lookupPath (odInsert m k v) q = if q = k then some v else lookupPath m q := by
  induction m with
  | nil =>
    simp only [odInsert, lookupPath]
    by_cases h : q = k
    · simp [h]
    · have h' : ¬ k = q := fun hh => h hh.symm
      simp [h, h']
  | cons e m ih =>
    obtain ⟨k1, v1⟩ := e
    simp only [odInsert]
    by_cases h1 : k1 = k
    · subst h1
      by_cases h : q = k1
      · simp [h, lookupPath]
      · have h' : ¬ k1 = q := fun hh => h hh.symm
        simp [h, h', lookupPath]
    · simp only [if_neg h1, lookupPath]
      by_cases h2 : k1 = q
      · have hq : ¬ q = k := by
          subst h2
          exact fun hh => h1 hh
        simp [h2, hq]
      · simp [h2, ih]

theorem lastFor_cons (p : List Char) (b : CapturedBlock)
    (bs : List CapturedBlock) :
    lastFor p (b :: bs) =
      (lastFor p bs).or (if b.path == p then some b else none) := by
  unfold lastFor
  rw [show b :: bs = [b] ++ bs from rfl, List.filter_append, List.getLast?_append]
  congr 1
  simp only [List.filter]
  split <;> simp_all

theorem lookup_foldl_register (bs : List CapturedBlock) :
    ∀ (m : FilesMap) (p : List Char),
      lookupPath (bs.foldl registerBlock m) p =
        ((lastFor p bs).map (fun b => (b.idx, b.content))).or (lookupPath m p) := by
  induction bs with
  | nil => intro m p; simp [lastFor, lookupPath]
  | cons b bs ih =>
    intro m p
    rw [List.foldl_cons, ih, lastFor_cons]
    cases hl : lastFor p bs with
    | some b' => simp [Option.or]
    | none =>
      simp only [Option.or, Option.map_none, registerBlock, lookup_odInsert]
      by_cases h : p = b.path
      · have : (b.path == p) = true := by simp [h]
        simp [h, this]
      · have : (b.path == p) = false := by
          simp only [beq_eq_false_iff_ne, ne_eq]
          exact fun hh => h hh.symm
        simp [h, this]

/-! ## Driver decomposition -/

theorem mainFold_eq (ts : List (List Line)) :
    ∀ (idx : Nat) (m : FilesMap),
      mainFold ts idx m = (allBlocksFrom ts idx).foldl registerBlock m := by
  induction ts with
  | nil => intro idx m; rfl
  | cons t ts ih =>
    intro idx m
    simp only [mainFold, allBlocksFrom, extract_from_file, List.foldl_append]
    exact ih (idx + 1) _

theorem registry_eq (ts : List (List Line)) :
    registry ts = (allBlocks ts).foldl registerBlock [] :=
  mainFold_eq ts 1 []

theorem allBlocksFrom_append (xs ys : List (List Line)) :
    ∀ n : Nat, allBlocksFrom (xs ++ ys) n =
      allBlocksFrom xs n ++ allBlocksFrom ys (n + xs.length) := by
  induction xs with
  | nil => intro n; simp [allBlocksFrom]
  | cons x xs ih =>
    intro n
    have harith : n + 1 + xs.length = n + (xs.length + 1) := by omega
    simp only [List.cons_append, allBlocksFrom, List.append_eq, ih (n + 1),
      List.append_assoc, List.length_cons, harith]

theorem lastFor_append (p : List Char) (xs ys : List CapturedBlock) :
    lastFor p (xs ++ ys) = (lastFor p ys).or (lastFor p xs) := by
  unfold lastFor
  rw [List.filter_append, List.getLast?_append]

/-! ## Emission lemmas: every block carries its transcript index and a
`rstrip + newline` content -/

theorem scanStep_some (idx : Nat) (line : Line) (rest : List Line)
    (b : CapturedBlock) (rest2 : List Line)
    (h : scanStep idx line rest = (some b, rest2)) :
    b.idx = idx ∧ ∃ buf, b.content = mkContent buf := by
  unfold scanStep at h
  cases hb : beginMatch line with
  | some g =>
    rw [hb] at h
    injection h with h1 h2
    injection h1 with h1
    exact ⟨by rw [← h1], _, by rw [← h1]⟩
  | none =>
  rw [hb] at h
  cases hf : fenceName line with
  | some g =>
    rw [hf] at h
    injection h with h1 h2
    injection h1 with h1
    exact ⟨by rw [← h1], _, by rw [← h1]⟩
  | none =>
  rw [hf] at h
  cases hi : inlineName line with
  | some g =>
    rw [hi] at h
    dsimp only at h
    cases hr : rest.dropWhile isBlankLine with
    | nil =>
      rw [hr] at h
      injection h with h1 h2
      injection h1 with h1
      exact ⟨by rw [← h1], _, by rw [← h1]⟩
    | cons f r =>
      rw [hr] at h
      dsimp only at h
      by_cases hsf : startsFence f = true
      · rw [if_pos hsf] at h
        injection h with h1 h2
        injection h1 with h1
        exact ⟨by rw [← h1], _, by rw [← h1]⟩
      · rw [if_neg hsf] at h
        injection h with h1 h2
        injection h1 with h1
        exact ⟨by rw [← h1], _, by rw [← h1]⟩
  | none =>
  rw [hi] at h
  by_cases hsl : startsFence line = true
  · rw [if_pos hsl] at h
    cases rest with
    | nil => exact absurd h (by simp)
    | cons next r =>
      dsimp only at h
      cases hn : inlineName next with
      | some g =>
        rw [hn] at h
        dsimp only at h
        by_cases he : (normalize_path g).isEmpty = true
        · rw [if_pos he] at h
          exact absurd h (by simp)
        · rw [if_neg he] at h
          injection h with h1 h2
          injection h1 with h1
          exact ⟨by rw [← h1], _, by rw [← h1]⟩
      | none =>
        rw [hn] at h
        exact absurd h (by simp)
  · rw [if_neg hsl] at h
    exact absurd h (by simp)

theorem extractGo_mem (idx : Nat) :
    ∀ (f : Nat) (lines : List Line) (b : CapturedBlock),
      b ∈ extractGo idx f lines →
        b.idx = idx ∧ ∃ buf, b.content = mkContent buf := by
  intro f
  induction f with
  | zero => intro lines b hb; simp [extractGo] at hb
  | succ f ih =>
    intro lines b hb
    cases lines with
    | nil => simp [extractGo] at hb
    | cons line rest =>
      rw [extractGo] at hb
      cases hstep : scanStep idx line rest with
      | mk ob rest2 =>
        rw [hstep] at hb
        cases ob with
        | some b' =>
          simp only [List.mem_cons] at hb
          cases hb with
          | inl heq => subst heq; exact scanStep_some idx line rest b rest2 hstep
          | inr hmem => exact ih rest2 b hmem
        | none => exact ih rest b hb

theorem extractBlocks_mem (idx : Nat) (lines : List Line) (b : CapturedBlock)
    (hb : b ∈ extractBlocks idx lines) :
    b.idx = idx ∧ ∃ buf, b.content = mkContent buf :=
  extractGo_mem idx lines.length lines b hb

theorem lastFor_allBlocksFrom_none (p : List Char) (L : List (List Line))
    (h : ∀ t ∈ L, ∀ k, lastFor p (extractBlocks k t) = none) :
    ∀ n, lastFor p (allBlocksFrom L n) = none := by
  induction L with
  | nil => intro n; simp [allBlocksFrom, lastFor]
  | cons t L ih =>
    intro n
    have ht := h t (by simp)
    have hL : ∀ t' ∈ L, ∀ k, lastFor p (extractBlocks k t') = none :=
      fun t' ht' k => h t' (by simp [ht']) k
    simp only [allBlocksFrom, lastFor_append, ht n, ih hL (n + 1), Option.or]

theorem lastFor_mem (p : List Char) (bs : List CapturedBlock)
    (b : CapturedBlock) (h : lastFor p bs = some b) : b ∈ bs ∧ b.path = p := by
  unfold lastFor at h
  have hm := List.mem_of_mem_getLast? h
  rw [List.mem_filter] at hm
  exact ⟨hm.1, by simpa using hm.2⟩

/-! ## Key-order lemmas -/

theorem keys_odInsert (m : FilesMap) (k : List Char) (v : Nat × List Char) :
    (odInsert m k v).map Prod.fst =
      if k ∈ m.map Prod.fst then m.map Prod.fst
      else m.map Prod.fst ++ [k] := by
  induction m with
  | nil => simp [odInsert]
  | cons e m ih =>
    obtain ⟨k1, v1⟩ := e
    simp only [odInsert]
    by_cases h1 : k1 = k
    · subst h1; simp
    · have hk : ¬ k = k1 := fun hh => h1 hh.symm
      simp only [if_neg h1, List.map_cons, ih, List.mem_cons]
      by_cases h2 : k ∈ m.map Prod.fst
      · simp [h2, hk]
      · simp [h2, hk]

theorem keys_foldl_register (bs : List CapturedBlock) :
    ∀ m : FilesMap,
      (bs.foldl registerBlock m).map Prod.fst =
        bs.foldl (fun ks b => if b.path ∈ ks then ks else ks ++ [b.path])
          (m.map Prod.fst) := by
  induction bs with
  | nil => intro m; rfl
  | cons b bs ih =>
    intro m
    simp only [List.foldl_cons, ih, registerBlock, keys_odInsert]

/-- Registry iteration order is the first-insertion order of the emitted
paths: overwriting an existing path does not move it, a new path is appended
at the end. -/
theorem keys_registry (ts : List (List Line)) :
    (registry ts).map Prod.fst =
      firstInsertionOrder ((allBlocks ts).map CapturedBlock.path) := by
  rw [registry_eq, keys_foldl_register]
  unfold firstInsertionOrder
  rw [List.foldl_map]
  rfl

theorem nodup_keys_odInsert (m : FilesMap) (k : List Char)
    (v : Nat × List Char) (h : (m.map Prod.fst).Nodup) :
    ((odInsert m k v).map Prod.fst).Nodup := by
  rw [keys_odInsert]
  split
  · exact h
  · rename_i hk
    refine h.append (List.nodup_singleton k) ?_
    intro a ha hb
    simp only [List.mem_singleton] at hb
    subst hb
    exact hk ha

theorem nodup_keys_foldl (bs : List CapturedBlock) :
    ∀ m : FilesMap, (m.map Prod.fst).Nodup →
      ((bs.foldl registerBlock m).map Prod.fst).Nodup := by
  induction bs with
  | nil => intro m h; exact h
  | cons b bs ih => intro m h; exact ih _ (nodup_keys_odInsert m _ _ h)

theorem nodup_keys_registry (ts : List (List Line)) :
    ((registry ts).map Prod.fst).Nodup := by
  rw [registry_eq]
  exact nodup_keys_foldl _ [] (by simp)

theorem lookup_mem_self (m : FilesMap) (h : (m.map Prod.fst).Nodup) :
    ∀ e ∈ m, lookupPath m e.1 = some e.2 := by
  induction m with
  | nil => intro e he; simp at he
  | cons f m ih =>
    intro e he
    obtain ⟨k, v⟩ := f
    simp only [List.map_cons, List.nodup_cons] at h
    simp only [List.mem_cons] at he
    cases he with
    | inl heq => subst heq; simp [lookupPath]
    | inr hmem =>
      have hk : ¬ k = e.1 := by
        intro hh
        exact h.1 (by rw [hh]; exact List.mem_map_of_mem Prod.fst hmem)
      simp only [lookupPath, if_neg hk]
      exact ih h.2 e hmem

/-! ## Claim theorems -/

/-- C6: Trailing-newline normalization — every CapturedBlock produced by any
of the recognizers has content ending in exactly one trailing newline
character, regardless of how many trailing newline characters the source
span had (including a span with zero lines): the maximal newline suffix of
the content is exactly `['\n']`. -/
theorem C6_trailing_newline (idx : Nat) (lines : List Line)
    (b : CapturedBlock) (hb : b ∈ extractBlocks idx lines) :
    b.content.reverse.takeWhile (fun c => c == '\n') = ['\n'] := by
  obtain ⟨-, buf, hc⟩ := extractBlocks_mem idx lines b hb
  rw [hc]
  exact mkContent_trailing buf

/-- Witness for C6: a block whose source span ends in two newlines is
captured with exactly one. -/
theorem C6_trailing_newline_witness :
    (⟨"a.txt".toList, 1, "hello\n".toList⟩ : CapturedBlock) ∈
        extractBlocks 1 (["--- BEGIN FILE: a.txt ---\n", "hello\n", "\n",
          "--- END FILE: a.txt ---\n"].map String.toList)
    ∧ ("hello\n".toList).reverse.takeWhile (fun c => c == '\n') = ['\n'] :=
  ⟨by decide, C6_trailing_newline 1
    (["--- BEGIN FILE: a.txt ---\n", "hello\n", "\n",
      "--- END FILE: a.txt ---\n"].map String.toList)
    ⟨"a.txt".toList, 1, "hello\n".toList⟩ (by decide)⟩

/-- C3 counterexample: a fence opener whose `name=` attribute normalizes to
the empty string is registered all the same — the registry holds a record
under the empty path and the report gets a line for it, contradicting the
claim that an empty normalized path is silently ignored. -/
theorem C3_empty_path_registered :
    lookupPath (registry [(["```name= \n", "x\n", "```\n"].map String.toList)])
        [] = some (1, "x\n".toList)
    ∧ reportFileLines [(["```name= \n", "x\n", "```\n"].map String.toList)] =
        [reportLine [] 1 2] := by
  refine ⟨by decide, by decide⟩

/-- C3 amended: registration is unconditional — `files_map[fname]` is
assigned for every captured block, so a path (the empty string included) has
a registry record exactly when some captured block carries it. -/
theorem C3_registration_unconditional (ts : List (List Line))
    (p : List Char) :
    (lookupPath (registry ts) p).isSome = true ↔
      ∃ b ∈ allBlocks ts, b.path = p := by
  rw [registry_eq, lookup_foldl_register]
  simp only [lookupPath, Option.or_none]
  constructor
  · intro h
    cases hl : lastFor p (allBlocks ts) with
    | none => rw [hl] at h; simp at h
    | some b =>
      obtain ⟨hm, hp⟩ := lastFor_mem p _ b hl
      exact ⟨b, hm, hp⟩
  · rintro ⟨b, hm, hp⟩
    have hf : b ∈ (allBlocks ts).filter (fun x => x.path == p) := by
      rw [List.mem_filter]
      exact ⟨hm, by simp [hp]⟩
    have hne := List.ne_nil_of_mem hf
    have hsome : (lastFor p (allBlocks ts)).isSome = true := by
      unfold lastFor
      exact List.getLast?_isSome.mpr hne
    cases hl : lastFor p (allBlocks ts) with
    | none => rw [hl] at hsome; simp at hsome
    | some b' => rfl

/-- Witness for C3's amended theorem at a concrete transcript and the empty
path. -/
theorem C3_registration_unconditional_witness :
    (lookupPath
      (registry [(["```name= \n", "x\n", "```\n"].map String.toList)])
      []).isSome = true :=
  (C3_registration_unconditional
    [(["```name= \n", "x\n", "```\n"].map String.toList)] []).mpr (by decide)

/-- C2: the final stripping step before the join (the evident intent of the
unparseable source line 166, `lstrip('/\\')`) removes leading slashes only:
a raw token `C:\evil.txt` normalizes to `C:/evil.txt` and survives the
stripping step with its leading drive-style prefix intact, and the driver's
`written` list carries that drive-prefixed path. -/
theorem C2_drive_marker_survives :
    safe_path (normalize_path "C:\\evil.txt".toList) = "C:/evil.txt".toList
    ∧ hasDriveMarker (safe_path (normalize_path "C:\\evil.txt".toList)) = true
    ∧ written [(["--- BEGIN FILE: C:\\evil.txt ---\n", "v\n",
        "--- END ---\n"].map String.toList)] =
        [("C:/evil.txt".toList, 1, 2)]
    ∧ hasDriveMarker "C:/evil.txt".toList = true := by
  refine ⟨by decide, by decide, by decide, by decide⟩

/-- C9: no unknown fragment is ever produced — `extract_from_file` returns
its `unknowns_counter` argument unchanged, and every registry record
originates from a captured block of some transcript (no placeholder-named
content is synthesized). -/
theorem C9_no_unknowns :
    (∀ (lines : List Line) (m : FilesMap) (c idx : Nat),
        (extract_from_file lines m c idx).2 = c)
    ∧ (∀ (ts : List (List Line)) (p : List Char) (rec : Nat × List Char),
        lookupPath (registry ts) p = some rec →
          ∃ b ∈ allBlocks ts, b.path = p ∧ b.idx = rec.1 ∧
            b.content = rec.2) := by
  constructor
  · intro lines m c idx; rfl
  · intro ts p rec h
    rw [registry_eq, lookup_foldl_register] at h
    simp only [lookupPath, Option.or_none] at h
    cases hl : lastFor p (allBlocks ts) with
    | none => rw [hl] at h; simp at h
    | some b =>
      rw [hl] at h
      have h2 : (b.idx, b.content) = rec := by simpa using h
      obtain ⟨hm, hp⟩ := lastFor_mem p _ b hl
      exact ⟨b, hm, hp, by rw [← h2], by rw [← h2]⟩

/-- Witness for C9 at a concrete transcript. -/
theorem C9_no_unknowns_witness :
    ∃ b ∈ allBlocks [(["--- BEGIN: f ---\n", "w\n", "--- END ---\n"].map
        String.toList)],
      b.path = "f".toList ∧ b.idx = (1, "w\n".toList).1 ∧
        b.content = (1, "w\n".toList).2 :=
  C9_no_unknowns.2
    [(["--- BEGIN: f ---\n", "w\n", "--- END ---\n"].map String.toList)]
    "f".toList (1, "w\n".toList) (by decide)

/-- C4: terminator recognition for explicit-marker blocks depends only on
the end-marker shape, never on path equality between begin and end markers —
any FILE_END_RE-matching line closes the block (a begin marker for path "a"
closed by an end marker naming path "b" included), and the terminator line is
consumed but not included in the content. -/
theorem C4_end_marker_shape (idx : Nat) (beginLine : Line) (g : List Char)
    (body : List Line) (endLine : Line) (post : List Line)
    (hbegin : beginMatch beginLine = some g)
    (hbody : ∀ l ∈ body, endMatch l = false)
    (hend : endMatch endLine = true) :
    extractBlocks idx (beginLine :: (body ++ endLine :: post)) =
      ⟨normalize_path g, idx, mkContent body⟩ :: extractBlocks idx post := by
  rw [extractBlocks_cons]
  have hstep : scanStep idx beginLine (body ++ endLine :: post) =
      (some ⟨normalize_path g, idx, mkContent body⟩, post) := by
    unfold scanStep
    rw [hbegin]
    dsimp only
    rw [takeWhile_until endMatch body endLine post hbody hend,
      dropWhile_until endMatch body endLine post hbody hend]
    simp [dropTerm, hend]
  rw [hstep]

/-- Witness for C4: a begin marker for path `a` is closed by an end marker
naming path `b`; the terminator is consumed and absent from the content. -/
theorem C4_end_marker_shape_witness :
    beginMatch "--- BEGIN FILE: a ---\n".toList = some "a".toList
    ∧ endMatch "--- END FILE: b ---\n".toList = true
    ∧ extractBlocks 1 ("--- BEGIN FILE: a ---\n".toList ::
        (["x\n".toList] ++ "--- END FILE: b ---\n".toList :: ["y\n".toList])) =
      ⟨normalize_path "a".toList, 1, mkContent ["x\n".toList]⟩ ::
        extractBlocks 1 ["y\n".toList] :=
  ⟨by decide, by decide,
    C4_end_marker_shape 1 "--- BEGIN FILE: a ---\n".toList "a".toList
      ["x\n".toList] "--- END FILE: b ---\n".toList ["y\n".toList]
      (by decide) (by decide) (by decide)⟩

/-- C5: unterminated-block leniency — for each recognizer that captures up
to a terminator (explicit END marker, closing fence in the three fenced
shapes), reaching end of input with no terminator captures all remaining
lines as the block's content and the scan completes normally with exactly
that block. -/
theorem C5_unterminated_leniency :
    (∀ (idx : Nat) (line : Line) (g : List Char) (rest : List Line),
      beginMatch line = some g →
      (∀ l ∈ rest, endMatch l = false) →
      extractBlocks idx (line :: rest) =
        [⟨normalize_path g, idx, mkContent rest⟩])
    ∧ (∀ (idx : Nat) (line : Line) (g : List Char) (rest : List Line),
      beginMatch line = none →
      fenceName line = some g →
      (∀ l ∈ rest, startsFence l = false) →
      extractBlocks idx (line :: rest) =
        [⟨normalize_path g, idx, mkContent rest⟩])
    ∧ (∀ (idx : Nat) (line : Line) (g : List Char) (rest : List Line)
        (fenceL : Line) (r : List Line),
      beginMatch line = none →
      fenceName line = none →
      inlineName line = some g →
      rest.dropWhile isBlankLine = fenceL :: r →
      startsFence fenceL = true →
      (∀ l ∈ r, startsFence l = false) →
      extractBlocks idx (line :: rest) =
        [⟨normalize_path g, idx, mkContent r⟩])
    ∧ (∀ (idx : Nat) (line : Line) (g : List Char) (nameLine : Line)
        (r : List Line),
      beginMatch line = none →
      fenceName line = none →
      inlineName line = none →
      startsFence line = true →
      inlineName nameLine = some g →
      (normalize_path g).isEmpty = false →
      (∀ l ∈ r, startsFence l = false) →
      extractBlocks idx (line :: nameLine :: r) =
        [⟨normalize_path g, idx, mkContent r⟩]) := by
  refine ⟨?_, ?_, ?_, ?_⟩
  · intro idx line g rest hbegin hrest
    rw [extractBlocks_cons]
    have hstep : scanStep idx line rest =
        (some ⟨normalize_path g, idx, mkContent rest⟩, []) := by
      unfold scanStep
      rw [hbegin]
      try dsimp only
      rw [takeWhile_all endMatch rest hrest, dropWhile_all endMatch rest hrest]
      simp [dropTerm]
    rw [hstep]
    rfl
  · intro idx line g rest hbegin hfence hrest
    rw [extractBlocks_cons]
    have hstep : scanStep idx line rest =
        (some ⟨normalize_path g, idx, mkContent rest⟩, []) := by
      unfold scanStep
      rw [hbegin, hfence]
      try dsimp only
      rw [takeWhile_all startsFence rest hrest,
        dropWhile_all startsFence rest hrest]
      simp [dropTerm]
    rw [hstep]
    rfl
  · intro idx line g rest fenceL r hbegin hfence hinline hblank hsf hr
    rw [extractBlocks_cons]
    have hstep : scanStep idx line rest =
        (some ⟨normalize_path g, idx, mkContent r⟩, []) := by
      unfold scanStep
      rw [hbegin, hfence, hinline]
      try dsimp only
      rw [hblank]
      try dsimp only
      rw [if_pos hsf]
      rw [takeWhile_all startsFence r hr, dropWhile_all startsFence r hr]
      simp [dropTerm]
    rw [hstep]
    rfl
  · intro idx line g nameLine r hbegin hfence hinline hsl hname hnonempty hr
    rw [extractBlocks_cons]
    have hstep : scanStep idx line (nameLine :: r) =
        (some ⟨normalize_path g, idx, mkContent r⟩, []) := by
      unfold scanStep
      rw [hbegin, hfence, hinline]
      try dsimp only
      rw [if_pos hsl]
      try dsimp only
      rw [hname]
      try dsimp only
      rw [hnonempty]
      try dsimp only
      rw [takeWhile_all startsFence r hr, dropWhile_all startsFence r hr]
      simp [dropTerm]
    rw [hstep]
    rfl

/-- Witness for C5: Scenario C — an explicit BEGIN marker with no END marker
before end-of-file captures all remaining lines as content. -/
theorem C5_unterminated_leniency_witness :
    beginMatch "--- BEGIN: u ---\n".toList = some "u".toList
    ∧ extractBlocks 2 ("--- BEGIN: u ---\n".toList ::
        ["x\n".toList, "y\n".toList]) =
      [⟨normalize_path "u".toList, 2, mkContent ["x\n".toList, "y\n".toList]⟩] :=
  ⟨by decide,
    C5_unterminated_leniency.1 2 "--- BEGIN: u ---\n".toList "u".toList
      ["x\n".toList, "y\n".toList] (by decide) (by decide)⟩

/-- C10 counterexample: the embedded-name recognizer does not accept on
every inline-name next line.  For opener `` ```python `` the very next line
`name= ` matches INLINE_NAME_RE (group `" "`), but its normalized name is
the empty string, which is falsy in the source's `if found_name:` test, so
the recognizer declines and the opener is skipped; the scan instead emits a
different block — the inline-name recognizer's plain capture at the next
position, whose content even contains the closing fence line — and the
fenced capture the claim predicts is nowhere in the output. -/
theorem C10_embedded_name_declines :
    startsFence "```python\n".toList = true
    ∧ fenceName "```python\n".toList = none
    ∧ inlineName "name= \n".toList = some " ".toList
    ∧ extractBlocks 1 (["```python\n", "name= \n", "x\n",
        "```\n"].map String.toList) = [⟨[], 1, "x\n```\n".toList⟩]
    ∧ (⟨normalize_path " ".toList, 1, mkContent ["x\n".toList]⟩ :
        CapturedBlock) ∉
      extractBlocks 1 (["```python\n", "name= \n", "x\n",
        "```\n"].map String.toList) := by
  refine ⟨by decide, by decide, by decide, by decide, by decide⟩

/-- C10 amended: fenced-capture behavior — (a) the embedded-name recognizer
accepts any line beginning with three backticks that is not a named-fence
opener (info-string openers such as a language tag included) whenever the
very next line matches the inline-name pattern and its captured name
normalizes to a non-empty string (the source's `if found_name:` test is
falsy on the empty string, so an empty normalized name declines); and in
every fenced capture — (a) embedded, (b) named fence, (c) inline-name with
fence — any subsequent line beginning with three backticks, whatever follows
the backticks, terminates the body and is consumed. -/
theorem C10_fenced_capture :
    (∀ (idx : Nat) (opener nameLine : Line) (g t : List Char)
        (body post : List Line),
      beginMatch opener = none →
      fenceName opener = none →
      inlineName opener = none →
      startsFence opener = true →
      inlineName nameLine = some g →
      (normalize_path g).isEmpty = false →
      (∀ l ∈ body, startsFence l = false) →
      extractBlocks idx (opener :: nameLine ::
          (body ++ ('`' :: '`' :: '`' :: t) :: post)) =
        ⟨normalize_path g, idx, mkContent body⟩ :: extractBlocks idx post)
    ∧ (∀ (idx : Nat) (line : Line) (g t : List Char) (body post : List Line),
      beginMatch line = none →
      fenceName line = some g →
      (∀ l ∈ body, startsFence l = false) →
      extractBlocks idx (line :: (body ++ ('`' :: '`' :: '`' :: t) :: post)) =
        ⟨normalize_path g, idx, mkContent body⟩ :: extractBlocks idx post)
    ∧ (∀ (idx : Nat) (line : Line) (g t : List Char) (rest : List Line)
        (fenceL : Line) (body post : List Line),
      beginMatch line = none →
      fenceName line = none →
      inlineName line = some g →
      rest.dropWhile isBlankLine =
        fenceL :: (body ++ ('`' :: '`' :: '`' :: t) :: post) →
      startsFence fenceL = true →
      (∀ l ∈ body, startsFence l = false) →
      extractBlocks idx (line :: rest) =
        ⟨normalize_path g, idx, mkContent body⟩ :: extractBlocks idx post) := by
  have hfence3 : ∀ t : List Char, startsFence ('`' :: '`' :: '`' :: t) = true := by
    intro t
    have h3 : "```".toList = ['`', '`', '`'] := rfl
    simp [startsFence, h3, List.isPrefixOf]
  refine ⟨?_, ?_, ?_⟩
  · intro idx opener nameLine g t body post hbegin hfname hinl hsf hname hne hbody
    rw [extractBlocks_cons]
    have hstep : scanStep idx opener
        (nameLine :: (body ++ ('`' :: '`' :: '`' :: t) :: post)) =
        (some ⟨normalize_path g, idx, mkContent body⟩, post) := by
      unfold scanStep
      rw [hbegin, hfname, hinl]
      try dsimp only
      rw [if_pos hsf]
      try dsimp only
      rw [hname]
      try dsimp only
      rw [hne]
      try dsimp only
      rw [takeWhile_until startsFence body _ post hbody (hfence3 t),
        dropWhile_until startsFence body _ post hbody (hfence3 t)]
      simp [dropTerm, hfence3 t]
    rw [hstep]
  · intro idx line g t body post hbegin hfname hbody
    rw [extractBlocks_cons]
    have hstep : scanStep idx line (body ++ ('`' :: '`' :: '`' :: t) :: post) =
        (some ⟨normalize_path g, idx, mkContent body⟩, post) := by
      unfold scanStep
      rw [hbegin, hfname]
      try dsimp only
      rw [takeWhile_until startsFence body _ post hbody (hfence3 t),
        dropWhile_until startsFence body _ post hbody (hfence3 t)]
      simp [dropTerm, hfence3 t]
    rw [hstep]
  · intro idx line g t rest fenceL body post hbegin hfname hinl hblank hsf hbody
    rw [extractBlocks_cons]
    have hstep : scanStep idx line rest =
        (some ⟨normalize_path g, idx, mkContent body⟩, post) := by
      unfold scanStep
      rw [hbegin, hfname, hinl]
      try dsimp only
      rw [hblank]
      try dsimp only
      rw [if_pos hsf]
      rw [takeWhile_until startsFence body _ post hbody (hfence3 t),
        dropWhile_until startsFence body _ post hbody (hfence3 t)]
      simp [dropTerm, hfence3 t]
    rw [hstep]

/-- Witness for C10: a `python`-tagged opener, an embedded `name=` line, and
a closer carrying text after the backticks. -/
theorem C10_fenced_capture_witness :
    fenceName "```python\n".toList = none
    ∧ inlineName "name=emb.txt\n".toList = some "emb.txt".toList
    ∧ extractBlocks 1 ("```python\n".toList :: "name=emb.txt\n".toList ::
        (["a\n".toList] ++
          ('`' :: '`' :: '`' :: "rest\n".toList) :: ["z\n".toList])) =
      ⟨normalize_path "emb.txt".toList, 1, mkContent ["a\n".toList]⟩ ::
        extractBlocks 1 ["z\n".toList] :=
  ⟨by decide, by decide,
    C10_fenced_capture.1 1 "```python\n".toList "name=emb.txt\n".toList
      "emb.txt".toList "rest\n".toList ["a\n".toList] ["z\n".toList]
      (by decide) (by decide) (by decide) (by decide) (by decide) (by decide)
      (by decide)⟩

theorem mem_of_lookup (m : FilesMap) (p : List Char) (v : Nat × List Char)
    (h : lookupPath m p = some v) : (p, v) ∈ m := by
  induction m with
  | nil => simp [lookupPath] at h
  | cons e m ih =>
    obtain ⟨k, w⟩ := e
    simp only [lookupPath] at h
    by_cases hk : k = p
    · rw [if_pos hk] at h
      injection h with h
      subst hk
      subst h
      exact List.mem_cons_self _ _
    · rw [if_neg hk] at h
      exact List.mem_cons_of_mem _ (ih h)

/-- C1: Last-wins law — when the blocks for a path `p` come only from the
transcripts at source-order positions `i = pre.length + 1` and
`j = pre.length + mid.length + 2` (so `i < j`), the final registry record
for `p` is the last block for `p` in transcript `j`'s scan order, and it
carries index `j`.  Ties within transcript `j` (several matches for the same
path) resolve to the last match in scan order, which is what `lastFor`
denotes. -/
theorem C1_last_wins (pre mid post : List (List Line)) (ti tj : List Line)
    (p : List Char)
    (hothers : ∀ t ∈ pre ++ mid ++ post, ∀ k,
      lastFor p (extractBlocks k t) = none)
    (hi : lastFor p (extractBlocks (pre.length + 1) ti) ≠ none)
    (hj : lastFor p (extractBlocks (pre.length + mid.length + 2) tj) ≠ none) :
    lookupPath (registry (pre ++ ti :: (mid ++ tj :: post))) p =
      (lastFor p (extractBlocks (pre.length + mid.length + 2) tj)).map
        (fun b => (b.idx, b.content))
    ∧ ∀ b, lastFor p (extractBlocks (pre.length + mid.length + 2) tj) =
        some b → b.idx = pre.length + mid.length + 2 := by
  constructor
  · rw [registry_eq, lookup_foldl_register]
    simp only [lookupPath, Option.or_none]
    unfold allBlocks
    rw [allBlocksFrom_append pre (ti :: (mid ++ tj :: post)) 1]
    simp only [allBlocksFrom]
    rw [allBlocksFrom_append mid (tj :: post) (1 + pre.length + 1)]
    simp only [allBlocksFrom]
    have e1 : 1 + pre.length + 1 + mid.length = pre.length + mid.length + 2 :=
      by omega
    rw [e1]
    have hpre' : ∀ n, lastFor p (allBlocksFrom pre n) = none :=
      lastFor_allBlocksFrom_none p pre
        (fun t ht k => hothers t (by simp [ht]) k)
    have hmid' : ∀ n, lastFor p (allBlocksFrom mid n) = none :=
      lastFor_allBlocksFrom_none p mid
        (fun t ht k => hothers t (by simp [ht]) k)
    have hpost' : ∀ n, lastFor p (allBlocksFrom post n) = none :=
      lastFor_allBlocksFrom_none p post
        (fun t ht k => hothers t (by simp [ht]) k)
    simp only [lastFor_append, hpre', hmid', hpost', Option.none_or,
      Option.or_none]
    cases hx : lastFor p (extractBlocks (pre.length + mid.length + 2) tj) with
    | none => exact absurd hx hj
    | some b => rfl
  · intro b hb
    obtain ⟨hm, -⟩ := lastFor_mem p _ b hb
    exact (extractBlocks_mem _ tj b hm).1

/-- Witness for C1: path `f` is captured once in transcript 1 and twice in
transcript 2; the final record is transcript 2's last match. -/
theorem C1_last_wins_witness :
    lastFor "f".toList (extractBlocks 2
        (["--- BEGIN: f ---\n", "2\n", "--- END ---\n", "--- BEGIN: f ---\n",
          "3\n", "--- END ---\n"].map String.toList)) ≠ none
    ∧ lookupPath (registry ([] ++
        (["--- BEGIN: f ---\n", "1\n", "--- END ---\n"].map String.toList) ::
          ([] ++ (["--- BEGIN: f ---\n", "2\n", "--- END ---\n",
            "--- BEGIN: f ---\n", "3\n", "--- END ---\n"].map String.toList) ::
            []))) "f".toList =
      (lastFor "f".toList (extractBlocks 2
        (["--- BEGIN: f ---\n", "2\n", "--- END ---\n", "--- BEGIN: f ---\n",
          "3\n", "--- END ---\n"].map String.toList))).map
        (fun b => (b.idx, b.content)) :=
  ⟨by decide,
    (C1_last_wins [] [] []
      (["--- BEGIN: f ---\n", "1\n", "--- END ---\n"].map String.toList)
      (["--- BEGIN: f ---\n", "2\n", "--- END ---\n", "--- BEGIN: f ---\n",
        "3\n", "--- END ---\n"].map String.toList)
      "f".toList (by simp) (by decide) (by decide)).1⟩

/-- C7 counterexample: the report records `len(content)` (code points), not
the byte length of the content written — for content `é\n` the line says
2 where the UTF-8 encoding written to disk is 3 bytes. -/
theorem C7_report_not_bytes :
    written [(["--- BEGIN FILE: a.txt ---\n", "é\n",
        "--- END ---\n"].map String.toList)] = [("a.txt".toList, 1, 2)]
    ∧ reportFileLines [(["--- BEGIN FILE: a.txt ---\n", "é\n",
        "--- END ---\n"].map String.toList)] =
      [reportLine "a.txt".toList 1 2]
    ∧ utf8Len "é\n".toList = 3
    ∧ (2 : Nat) ≠ 3 := by
  refine ⟨by decide, by decide, by decide, by decide⟩

/-- C7 amended: for every registered path there is exactly one report line —
the one at the path's registry position — recording the stripped path, the
originating source-order index, and the code-point count `len(content)`
(which equals the byte length only when the content is ASCII). -/
theorem C7_one_line_per_path (ts : List (List Line)) (p : List Char)
    (rec : Nat × List Char) (h : lookupPath (registry ts) p = some rec) :
    ∃! k : Nat, (registry ts)[k]? = some (p, rec) ∧
      (reportFileLines ts)[k]? =
        some (reportLine (safe_path p) rec.1 rec.2.length) := by
  have hmem : (p, rec) ∈ registry ts := mem_of_lookup _ _ _ h
  obtain ⟨k, hk⟩ := List.mem_iff_getElem?.mp hmem
  have hrep : ∀ n : Nat, (reportFileLines ts)[n]? =
      ((registry ts)[n]?).map
        (fun e => reportLine (safe_path e.1) e.2.1 e.2.2.length) := by
    intro n
    unfold reportFileLines written
    rw [List.getElem?_map, List.getElem?_map, Option.map_map]
    rfl
  refine ⟨k, ⟨hk, by rw [hrep k, hk]; rfl⟩, ?_⟩
  rintro k' ⟨hk', -⟩
  have hnd := nodup_keys_registry ts
  have hk2 : ((registry ts).map Prod.fst)[k]? = some p := by
    rw [List.getElem?_map, hk]; rfl
  have hk2' : ((registry ts).map Prod.fst)[k']? = some p := by
    rw [List.getElem?_map, hk']; rfl
  have hlt : k < ((registry ts).map Prod.fst).length := by
    rcases Nat.lt_or_ge k ((registry ts).map Prod.fst).length with hl | hge
    · exact hl
    · rw [List.getElem?_eq_none hge] at hk2; cases hk2
  have hlt' : k' < ((registry ts).map Prod.fst).length := by
    rcases Nat.lt_or_ge k' ((registry ts).map Prod.fst).length with hl | hge
    · exact hl
    · rw [List.getElem?_eq_none hge] at hk2'; cases hk2'
  have ek : ((registry ts).map Prod.fst)[k] = p := by
    have hq := List.getElem?_eq_getElem hlt
    rw [hq] at hk2
    injection hk2
  have ek' : ((registry ts).map Prod.fst)[k'] = p := by
    have hq := List.getElem?_eq_getElem hlt'
    rw [hq] at hk2'
    injection hk2'
  exact (List.Nodup.getElem_inj_iff hnd).mp (by rw [ek, ek'])

/-- Witness for C7's amended theorem at a concrete transcript. -/
theorem C7_one_line_per_path_witness :
    ∃! k : Nat,
      (registry [(["--- BEGIN FILE: a.txt ---\n", "v\n",
        "--- END ---\n"].map String.toList)])[k]? =
          some ("a.txt".toList, (1, "v\n".toList)) ∧
      (reportFileLines [(["--- BEGIN FILE: a.txt ---\n", "v\n",
        "--- END ---\n"].map String.toList)])[k]? =
          some (reportLine (safe_path "a.txt".toList) (1, "v\n".toList).1
            (1, "v\n".toList).2.length) :=
  C7_one_line_per_path
    [(["--- BEGIN FILE: a.txt ---\n", "v\n", "--- END ---\n"].map
      String.toList)]
    "a.txt".toList (1, "v\n".toList) (by decide)

/-- C8: determinism and iteration order — the embedding is a pure function
of the transcript list, and (1) registry iteration order is the
first-insertion order of the still-current keys, (2) the report lines follow
that order, one line per key with that key's current record, and (3)
overwriting an existing key leaves the key order unchanged (the record does
not move). -/
theorem C8_order_and_determinism :
    (∀ ts : List (List Line),
      (registry ts).map Prod.fst =
        firstInsertionOrder ((allBlocks ts).map CapturedBlock.path))
    ∧ (∀ ts : List (List Line),
      reportFileLines ts = ((registry ts).map Prod.fst).map (fun q =>
        ((lookupPath (registry ts) q).map
          (fun rec => reportLine (safe_path q) rec.1 rec.2.length)).getD []))
    ∧ (∀ (m : FilesMap) (k : List Char) (v : Nat × List Char),
      k ∈ m.map Prod.fst → (odInsert m k v).map Prod.fst = m.map Prod.fst) := by
  refine ⟨keys_registry, ?_, ?_⟩
  · intro ts
    unfold reportFileLines written
    rw [List.map_map, List.map_map]
    apply List.map_congr_left
    intro e he
    have hl := lookup_mem_self (registry ts) (nodup_keys_registry ts) e he
    simp [Function.comp, hl]
  · intro m k v hk
    rw [keys_odInsert, if_pos hk]

/-- Witness for C8: overwriting the resident key `a` leaves the key order
unchanged. -/
theorem C8_order_and_determinism_witness :
    "a".toList ∈ ([("a".toList, (1, "x\n".toList)),
        ("b".toList, (1, "y\n".toList))] : FilesMap).map Prod.fst
    ∧ (odInsert [("a".toList, (1, "x\n".toList)),
        ("b".toList, (1, "y\n".toList))] "a".toList
          (2, "z\n".toList)).map Prod.fst =
      ([("a".toList, (1, "x\n".toList)),
        ("b".toList, (1, "y\n".toList))] : FilesMap).map Prod.fst :=
  ⟨by decide, C8_order_and_determinism.2.2
    [("a".toList, (1, "x\n".toList)), ("b".toList, (1, "y\n".toList))]
    "a".toList (2, "z\n".toList) (by decide)⟩

end ParseConvos
